import Mathlib

/-!
Verification of the process-tree printer (`cpp_tutorial_9aeffd.cpp`) and the
miniature HTTP-style router (`ruby_guide_b966dd.rb`).

The C++ `printProcessTree` is a recursion with no cycle guard; we embed it with
an explicit `fuel` parameter that models the available call-stack depth: the
function returns `none` exactly when the C++ recursion would still be running
(and eventually exhaust the stack) at that depth.  The traversal emits
`(level, record)` pairs; the printed strings are obtained by `renderLine`.

The Ruby router is embedded with insertion-ordered association lists that model
Ruby `Hash` semantics, including the auto-vivifying default block
`Hash.new { |hash, key| hash[key] = {} }` used by both registration and
dispatch.
-/

namespace ProcTree

/-- The `ProcessInfo` struct of the C++ source (the `level` field of the struct
is never read after initialisation, so it is omitted; indentation depth is the
`level` argument of `printProcessTree`). -/
structure ProcessInfo where
  pid : Int
  ppid : Int
  name : String
deriving DecidableEq

/-- Insert a record into a list sorted by ascending pid (helper for the
`std::sort` call on the `children` vector). -/
def insertByPid (p : ProcessInfo) : List ProcessInfo → List ProcessInfo
  | [] => [p]
  | q :: rest => if p.pid ≤ q.pid then p :: q :: rest else q :: insertByPid p rest

/-- Sorting of the `children` vector by ascending pid, as done by `std::sort`
with comparator `a->pid < b->pid`.  (Insertion sort; it is stable, which fixes
one of the orders `std::sort` may produce for records with equal pids.) -/
def sortByPid : List ProcessInfo → List ProcessInfo
  | [] => []
  | p :: rest => insertByPid p (sortByPid rest)

/-- The `children` vector computed at the top of `printProcessTree`: all
records whose `ppid` equals `current_pid`, sorted by ascending pid. -/
def childrenOf (all : List ProcessInfo) (cur : Int) : List ProcessInfo :=
  sortByPid (all.filter (fun r => r.ppid == cur))

/-- The line printed for a child at indentation `level`:
two spaces per level, then `+-- name (PID: pid, PPID: ppid)`. -/
def renderLine (level : Nat) (p : ProcessInfo) : String :=
  String.join (List.replicate level "  ") ++
    "+-- " ++ p.name ++ " (PID: " ++ toString p.pid ++ ", PPID: " ++ toString p.ppid ++ ")"

/-- The root line printed by `main` before the traversal. -/
def rootLine : String := "Root (System) (PID: 0, PPID: 0)"

/-- The loop body of `printProcessTree`: for each child (in sorted order) emit
its `(level, record)` pair and then splice in the recursively emitted subtree.
`rec` is the recursive call at the child's pid; `none` (stack exhaustion)
propagates. -/
def emitChildren (rec : Int → Option (List (Nat × ProcessInfo))) (level : Nat) :
    List ProcessInfo → Option (List (Nat × ProcessInfo))
  | [] => some []
  | c :: rest =>
    match rec c.pid, emitChildren rec level rest with
    | some sub, some tail => some ((level, c) :: (sub ++ tail))
    | _, _ => none

/-- Fuel-indexed embedding of `printProcessTree(all_processes, current_pid,
level)`.  Each recursive call of the C++ function consumes one stack frame;
`fuel` is the number of frames still available, so `none` means the recursion
is still running when the stack is exhausted. -/
def emitTree : Nat → List ProcessInfo → Int → Nat → Option (List (Nat × ProcessInfo))
  | 0, _, _, _ => none
  | fuel + 1, all, cur, level =>
    emitChildren (fun p => emitTree fuel all p (level + 1)) level (childrenOf all cur)

/-- The printed output of `printProcessTree`: one string per emitted record. -/
def printProcessTree (fuel : Nat) (all : List ProcessInfo) (cur : Int) (level : Nat) :
    Option (List String) :=
  (emitTree fuel all cur level).map (List.map fun e => renderLine e.1 e.2)

/-- The render contract of the spec: root line followed by the tree rooted at
`root`.  The fuel `all.length + 1` is the stack depth that suffices for every
acyclic record set (`c2_acyclic_render`); on a cyclic set no fuel suffices. -/
def render (all : List ProcessInfo) (root : Int) : Option (List String) :=
  (emitTree (all.length + 1) all root 0).map
    fun out => rootLine :: out.map (fun e => renderLine e.1 e.2)

/-- Relation `ChildRel all p c`: some record has `ppid = p` and `pid = c`, that is, the
traversal of node `p` recurses into pid `c`. -/
def ChildRel (all : List ProcessInfo) (p c : Int) : Prop :=
  ∃ r ∈ all, r.ppid = p ∧ r.pid = c

/-- No chain of parent_pid references returns to an already-visited pid. -/
def Acyclic (all : List ProcessInfo) : Prop :=
  ∀ p, ¬ Relation.TransGen (ChildRel all) p p

/-- Predicate `IsPidChain all p l`: `l` is the list of pids of a descending chain of
parent_pid references starting at `p`. -/
def IsPidChain (all : List ProcessInfo) : Int → List Int → Prop
  | _, [] => True
  | p, c :: rest => ChildRel all p c ∧ IsPidChain all c rest

/-- Occurrences of a record in a list (used to state "emitted exactly once"). -/
def countRec (d : ProcessInfo) : List ProcessInfo → Nat
  | [] => 0
  | x :: rest => (if x = d then 1 else 0) + countRec d rest

/-- Outcome of the platform process source: either `opendir("/proc")` fails, or
it succeeds and the parsed records are returned. -/
inductive SourceOutcome where
  | unavailable
  | available (records : List ProcessInfo)

/-- Embedding of `getAllProcessInfo`: the returned record vector together with
the error lines the function itself prints to `stderr`.  When `/proc` cannot
be opened it prints an error and returns the empty vector. -/
def getAllProcessInfo : SourceOutcome → List ProcessInfo × List String
  | .unavailable => ([], ["Error: Could not open /proc directory."])
  | .available rs => (rs, [])

/-- Embedding of `main`: exit code, stdout lines, stderr lines.  `none` models
the run not terminating normally (stack exhaustion inside the traversal). -/
def mainRun (src : SourceOutcome) : Option (Nat × List String × List String) :=
  let res := getAllProcessInfo src
  if res.1.isEmpty then
    some (1, ["Gathering process information..."],
      res.2 ++ ["No process information retrieved. This might happen on non-Linux/macOS systems or due to permissions."])
  else
    (emitTree (res.1.length + 1) res.1 0 0).map fun out =>
      (0,
       ["Gathering process information...", "Building and printing process tree...", rootLine]
         ++ out.map (fun e => renderLine e.1 e.2),
       res.2)

/-- The spec's four-record example: init, shell, editor, child. -/
def ex4 : List ProcessInfo :=
  [⟨1, 0, "init"⟩, ⟨2, 1, "shell"⟩, ⟨3, 1, "editor"⟩, ⟨4, 2, "child"⟩]

/-- The spec's cyclic example: `{5,6,"a"}` and `{6,5,"b"}`. -/
def cyc2 : List ProcessInfo := [⟨5, 6, "a"⟩, ⟨6, 5, "b"⟩]

/-- Two distinct records sharing pid 7 (both children of 0). -/
def dup2 : List ProcessInfo := [⟨7, 0, "a"⟩, ⟨7, 0, "b"⟩]

/-- Two distinct records sharing pid 7, plus a descendant of pid 7. -/
def dup3 : List ProcessInfo := [⟨7, 0, "a"⟩, ⟨7, 0, "b"⟩, ⟨8, 7, "c"⟩]

end ProcTree

namespace MiniRouter

/-- A registered action: a zero-argument block returning the response string. -/
def RouteAction : Type := Unit → String

/-- Ruby `String#upcase` restricted to ASCII, as applied to verb names. -/
def upChar (c : Char) : Char :=
  if 'a' ≤ c ∧ c ≤ 'z' then Char.ofNat (c.toNat - 32) else c

/-- Upcasing of a whole string (`http_method.to_s.upcase`). -/
def upStr (s : String) : String := ⟨s.data.map upChar⟩

/-- Lookup in an insertion-ordered association list (Ruby `Hash#[]` without
the default block). -/
def assocGet (k : String) : List (String × α) → Option α
  | [] => none
  | (k1, v1) :: rest => if k1 = k then some v1 else assocGet k rest

/-- Ruby `Hash#[]=`: update the value in place if the key exists, otherwise
append the pair at the end (insertion order). -/
def assocSet (k : String) (v : α) : List (String × α) → List (String × α)
  | [] => [(k, v)]
  | (k1, v1) :: rest => if k1 = k then (k, v) :: rest else (k1, v1) :: assocSet k v rest

/-- Embedding of `@routes[verb][path] = block` with the auto-vivifying default block: if
`verb` is absent an empty inner hash is inserted first, then `path` is set. -/
def nestedSet (v path : String) (a : RouteAction) :
    List (String × List (String × RouteAction)) → List (String × List (String × RouteAction))
  | [] => [(v, [(path, a)])]
  | (v1, tbl) :: rest =>
    if v1 = v then (v1, assocSet path a tbl) :: rest else (v1, tbl) :: nestedSet v path a rest

/-- The fixed verb set `HTTP_METHODS = %i[get post put delete]`. -/
inductive HttpMethod where
  | get | post | put | delete
deriving DecidableEq

/-- The string `method_name.to_s` for each member of `HTTP_METHODS`. -/
def HttpMethod.toStr : HttpMethod → String
  | .get => "get"
  | .post => "post"
  | .put => "put"
  | .delete => "delete"

/-- The router state: the `@routes` hash, a verb-keyed hash of path-keyed
hashes of action blocks, in insertion order. -/
structure Router where
  routes : List (String × List (String × RouteAction))

/-- Constructor `Router.new`: `@routes` starts empty. -/
def Router.new : Router := ⟨[]⟩

/-- The dynamically defined registration method for `m` (`router.get path do
... end` etc.): stores the block under `(m.to_s.upcase, path)`. -/
def registerRoute (m : HttpMethod) (path : String) (a : RouteAction) (r : Router) : Router :=
  ⟨nestedSet (upStr m.toStr) path a r.routes⟩

/-- Embedding of `Router#dispatch`.  The verb is normalised by upcasing; the
path is looked up by exact string equality.  Returns the response string and
the router state after the call: when the normalised verb is absent from
`@routes`, the Hash default block inserts an empty table for it (the only
mutation dispatch can make). -/
def dispatch (r : Router) (m path : String) : String × Router :=
  match assocGet (upStr m) r.routes with
  | some tbl =>
    match assocGet path tbl with
    | some handler => (handler (), r)
    | none => ("404 Not Found", r)
  | none => ("404 Not Found", ⟨r.routes ++ [(upStr m, [])]⟩)

/-- The verb-to-path-to-action mapping of the table: the action registered for
`(v, p)`, if any.  (`v` is expected in canonical upcased form.) -/
def routeLookup (r : Router) (v p : String) : Option RouteAction :=
  match assocGet v r.routes with
  | some tbl => assocGet p tbl
  | none => none

/-- A router with a single route: `GET /about`. -/
def aboutRouter : Router :=
  registerRoute .get "/about"
    (fun _ => "This is the about page, built with Ruby metaprogramming.") Router.new

end MiniRouter

namespace ProcTree

theorem insertByPid_perm (p : ProcessInfo) (l : List ProcessInfo) :
    (insertByPid p l).Perm (p :: l) := by
  induction l with
  | nil => simp [insertByPid]
  | cons q rest ih =>
    by_cases h : p.pid ≤ q.pid
    · simp [insertByPid, h]
    · simp only [insertByPid, if_neg h]
      exact (ih.cons q).trans (List.Perm.swap p q rest)

theorem sortByPid_perm (l : List ProcessInfo) : (sortByPid l).Perm l := by
  induction l with
  | nil => simp [sortByPid]
  | cons p rest ih => exact (insertByPid_perm p (sortByPid rest)).trans (ih.cons p)

theorem insertByPid_pairwise (p : ProcessInfo) (l : List ProcessInfo)
    (h : l.Pairwise (fun a b => a.pid ≤ b.pid)) :
    (insertByPid p l).Pairwise (fun a b => a.pid ≤ b.pid) := by
  induction l with
  | nil => simp [insertByPid]
  | cons q rest ih =>
    obtain ⟨hq, hrest⟩ := List.pairwise_cons.1 h
    by_cases hpq : p.pid ≤ q.pid
    · simp only [insertByPid, if_pos hpq]
      refine List.pairwise_cons.2 ⟨?_, h⟩
      intro x hx
      rcases List.mem_cons.1 hx with rfl | hx2
      · exact hpq
      · exact le_trans hpq (hq x hx2)
    · simp only [insertByPid, if_neg hpq]
      refine List.pairwise_cons.2 ⟨?_, ih hrest⟩
      intro x hx
      rcases List.mem_cons.1 ((insertByPid_perm p rest).mem_iff.1 hx) with rfl | hx2
      · exact le_of_lt (lt_of_not_le hpq)
      · exact hq x hx2

theorem sortByPid_pairwise (l : List ProcessInfo) :
    (sortByPid l).Pairwise (fun a b => a.pid ≤ b.pid) := by
  induction l with
  | nil => simp [sortByPid]
  | cons p rest ih => exact insertByPid_pairwise p (sortByPid rest) ih

theorem mem_childrenOf {all : List ProcessInfo} {cur : Int} {c : ProcessInfo} :
    c ∈ childrenOf all cur ↔ c ∈ all ∧ c.ppid = cur := by
  unfold childrenOf
  rw [(sortByPid_perm _).mem_iff, List.mem_filter]
  simp

theorem childrenOf_nodup_pids {all : List ProcessInfo} {cur : Int}
    (hN : (all.map fun r => r.pid).Nodup) :
    ((childrenOf all cur).map fun r => r.pid).Nodup := by
  have h1 : ((all.filter fun r => r.ppid == cur).map fun r => r.pid).Nodup :=
    hN.sublist ((List.filter_sublist all).map _)
  exact (((sortByPid_perm _).map _).nodup_iff).2 h1

theorem childrenOf_nodup {all : List ProcessInfo} {cur : Int}
    (hN : (all.map fun r => r.pid).Nodup) : (childrenOf all cur).Nodup :=
  (childrenOf_nodup_pids hN).of_map _

theorem childrenOf_pairwise_lt {all : List ProcessInfo} {cur : Int}
    (hN : (all.map fun r => r.pid).Nodup) :
    (childrenOf all cur).Pairwise (fun a b => a.pid < b.pid) := by
  have hle := sortByPid_pairwise (all.filter fun r => r.ppid == cur)
  have hne : (childrenOf all cur).Pairwise (fun a b => a.pid ≠ b.pid) :=
    List.pairwise_map.1 (childrenOf_nodup_pids hN)
  exact (hle.and hne).imp fun h => lt_of_le_of_ne h.1 h.2

theorem isPidChain_cons {all : List ProcessInfo} {p c : Int} {rest : List Int} :
    IsPidChain all p (c :: rest) ↔ ChildRel all p c ∧ IsPidChain all c rest := Iff.rfl

theorem chain_mem_transGen {all : List ProcessInfo} {x : Int} :
    ∀ {p : Int} {l : List Int}, IsPidChain all p l → x ∈ l →
      Relation.TransGen (ChildRel all) p x := by
  intro p l
  induction l generalizing p with
  | nil => intro _ hx; cases hx
  | cons c rest ih =>
    intro hch hx
    obtain ⟨hc, hrest⟩ := isPidChain_cons.1 hch
    rcases List.mem_cons.1 hx with rfl | hx2
    · exact .single hc
    · exact .head hc (ih hrest hx2)

theorem chain_cons_nodup {all : List ProcessInfo} (hA : Acyclic all) :
    ∀ {l : List Int} {p : Int}, IsPidChain all p l → (p :: l).Nodup := by
  intro l
  induction l with
  | nil => intro p _; simp
  | cons c rest ih =>
    intro p hch
    obtain ⟨hc, hrest⟩ := isPidChain_cons.1 hch
    refine List.nodup_cons.2 ⟨?_, ih hrest⟩
    intro hp
    exact hA p (chain_mem_transGen hch hp)

theorem chain_subset_pids {all : List ProcessInfo} :
    ∀ {p : Int} {l : List Int}, IsPidChain all p l → ∀ x ∈ l, x ∈ all.map fun r => r.pid := by
  intro p l
  induction l generalizing p with
  | nil => intro _ x hx; cases hx
  | cons c rest ih =>
    intro hch x hx
    obtain ⟨hc, hrest⟩ := isPidChain_cons.1 hch
    rcases List.mem_cons.1 hx with rfl | hx2
    · obtain ⟨r, hr, _, hpid⟩ := hc
      exact List.mem_map.2 ⟨r, hr, hpid⟩
    · exact ih hrest x hx2

theorem chain_length_le {all : List ProcessInfo} {p : Int} {l : List Int}
    (hA : Acyclic all) (hch : IsPidChain all p l) : l.length ≤ all.length := by
  have hnd : l.Nodup := (List.nodup_cons.1 (chain_cons_nodup hA hch)).2
  have hsub : l ⊆ all.map fun r => r.pid := fun x hx => chain_subset_pids hch x hx
  have := (hnd.subperm hsub).length_le
  simpa using this

theorem emitChildren_isSome (rec : Int → Option (List (Nat × ProcessInfo))) (level : Nat) :
    ∀ cs : List ProcessInfo, (∀ c ∈ cs, (rec c.pid).isSome) →
      (emitChildren rec level cs).isSome := by
  intro cs
  induction cs with
  | nil => intro _; simp [emitChildren]
  | cons c rest ih =>
    intro h
    obtain ⟨sub, hsub⟩ := Option.isSome_iff_exists.1 (h c (by simp))
    obtain ⟨tail, htail⟩ :=
      Option.isSome_iff_exists.1 (ih fun x hx => h x (List.mem_cons.2 (Or.inr hx)))
    simp [emitChildren, hsub, htail]

theorem emitChildren_success {rec : Int → Option (List (Nat × ProcessInfo))} {level : Nat}
    {cs : List ProcessInfo} {out : List (Nat × ProcessInfo)}
    (h : emitChildren rec level cs = some out) :
    ∀ c ∈ cs, ∃ sub, rec c.pid = some sub := by
  induction cs generalizing out with
  | nil => intro c hc; cases hc
  | cons c rest ih =>
    intro x hx
    cases hr : rec c.pid with
    | none => simp [emitChildren, hr] at h
    | some sub =>
      cases ht : emitChildren rec level rest with
      | none => simp [emitChildren, hr, ht] at h
      | some tail =>
        rcases List.mem_cons.1 hx with rfl | hx2
        · exact ⟨sub, hr⟩
        · exact ih ht x hx2

theorem countRec_append (d : ProcessInfo) (l1 l2 : List ProcessInfo) :
    countRec d (l1 ++ l2) = countRec d l1 + countRec d l2 := by
  induction l1 with
  | nil => simp [countRec]
  | cons x rest ih => simp [countRec, ih]; omega

theorem emitChildren_count {rec : Int → Option (List (Nat × ProcessInfo))} {level : Nat}
    {cs : List ProcessInfo} {out : List (Nat × ProcessInfo)}
    (h : emitChildren rec level cs = some out) (d : ProcessInfo) :
    countRec d (out.map Prod.snd) =
      (cs.map fun c =>
        (if c = d then 1 else 0) + countRec d (((rec c.pid).getD []).map Prod.snd)).sum := by
  induction cs generalizing out with
  | nil =>
    simp only [emitChildren, Option.some.injEq] at h
    subst h
    simp [countRec]
  | cons c rest ih =>
    cases hr : rec c.pid with
    | none => simp [emitChildren, hr] at h
    | some sub =>
      cases ht : emitChildren rec level rest with
      | none => simp [emitChildren, hr, ht] at h
      | some tail =>
        simp only [emitChildren, hr, ht, Option.some.injEq] at h
        subst h
        simp only [List.map_cons, List.map_append, List.sum_cons, countRec, hr,
          Option.getD_some, countRec_append]
        rw [ih ht]
        omega

theorem emitTree_isSome (all : List ProcessInfo) :
    ∀ (fuel : Nat) (cur : Int) (level : Nat),
      (∀ l, IsPidChain all cur l → l.length < fuel) →
      (emitTree fuel all cur level).isSome := by
  intro fuel
  induction fuel with
  | zero =>
    intro cur level h
    exact absurd (h [] trivial) (by simp)
  | succ fuel ih =>
    intro cur level h
    simp only [emitTree]
    apply emitChildren_isSome
    intro c hc
    rcases mem_childrenOf.1 hc with ⟨hmem, hppid⟩
    apply ih
    intro l hl
    have hch : IsPidChain all cur (c.pid :: l) := ⟨⟨c, hmem, hppid, rfl⟩, hl⟩
    have := h _ hch
    simp only [List.length_cons] at this
    omega

theorem emitTree_total_of_acyclic {all : List ProcessInfo} (hA : Acyclic all)
    (cur : Int) (level : Nat) :
    ∃ out, emitTree (all.length + 1) all cur level = some out := by
  apply Option.isSome_iff_exists.1
  apply emitTree_isSome
  intro l hl
  exact Nat.lt_succ_of_le (chain_length_le hA hl)

theorem uniqueParent {all : List ProcessInfo} (hN : (all.map fun r => r.pid).Nodup)
    {z1 z2 c : Int} (h1 : ChildRel all z1 c) (h2 : ChildRel all z2 c) : z1 = z2 := by
  obtain ⟨r1, hr1, hp1, hq1⟩ := h1
  obtain ⟨r2, hr2, hp2, hq2⟩ := h2
  have : r1 = r2 := List.inj_on_of_nodup_map hN hr1 hr2 (by rw [hq1, hq2])
  rw [← hp1, ← hp2, this]

theorem step_rtg_transGen {all : List ProcessInfo} {a b c : Int}
    (hab : ChildRel all a b) (hbc : Relation.ReflTransGen (ChildRel all) b c) :
    Relation.TransGen (ChildRel all) a c := by
  induction hbc with
  | refl => exact .single hab
  | tail _ h2 ih => exact ih.tail h2

theorem noReturn {all : List ProcessInfo} (hA : Acyclic all) {x y : Int}
    (h1 : ChildRel all x y) (h2 : Relation.ReflTransGen (ChildRel all) y x) : False :=
  hA x (step_rtg_transGen h1 h2)

theorem rtg_comparable {all : List ProcessInfo}
    (hN : (all.map fun r => r.pid).Nodup) {a x : Int}
    (h1 : Relation.ReflTransGen (ChildRel all) a x) :
    ∀ b, Relation.ReflTransGen (ChildRel all) b x →
      Relation.ReflTransGen (ChildRel all) a b ∨ Relation.ReflTransGen (ChildRel all) b a := by
  induction h1 with
  | refl => intro b hb; exact Or.inr hb
  | tail h1 hstep ih =>
    intro b hb
    rcases hb.cases_tail with heq | ⟨z, hbz, hzx⟩
    · subst heq
      exact Or.inl (h1.tail hstep)
    · have hz : z = _ := uniqueParent hN hzx hstep
      subst hz
      exact ih b hbz

theorem two_children_false {all : List ProcessInfo} (hA : Acyclic all)
    (hN : (all.map fun r => r.pid).Nodup) {z a b x : Int}
    (hca : ChildRel all z a) (hcb : ChildRel all z b) (hab : a ≠ b)
    (hax : Relation.ReflTransGen (ChildRel all) a x)
    (hbx : Relation.ReflTransGen (ChildRel all) b x) : False := by
  rcases rtg_comparable hN hax b hbx with h | h
  · rcases h.cases_tail with heq | ⟨w, haw, hwb⟩
    · exact hab heq.symm
    · have hw : w = z := uniqueParent hN hwb hcb
      subst hw
      exact noReturn hA hca haw
  · rcases h.cases_tail with heq | ⟨w, hbw, hwa⟩
    · exact hab heq
    · have hw : w = z := uniqueParent hN hwa hca
      subst hw
      exact noReturn hA hcb hbw

theorem sum_eq_one_of_unique {f : ProcessInfo → Nat} :
    ∀ cs : List ProcessInfo, cs.Nodup → ∀ c0 ∈ cs, f c0 = 1 →
      (∀ c ∈ cs, c ≠ c0 → f c = 0) → (cs.map f).sum = 1 := by
  intro cs
  induction cs with
  | nil => intro _ c0 hc0; cases hc0
  | cons c rest ih =>
    intro hnd c0 hc0 hf1 hf0
    rcases List.mem_cons.1 hc0 with rfl | hmem
    · simp only [List.map_cons, List.sum_cons, hf1]
      have hz : ∀ x ∈ rest.map f, x = 0 := by
        intro x hx
        rcases List.mem_map.1 hx with ⟨y, hy, rfl⟩
        refine hf0 y (List.mem_cons.2 (Or.inr hy)) fun h => ?_
        exact (List.nodup_cons.1 hnd).1 (h ▸ hy)
      rw [List.sum_eq_zero hz]
      omega
    · have hc_ne : c ≠ c0 := fun h => (List.nodup_cons.1 hnd).1 (h ▸ hmem)
      simp only [List.map_cons, List.sum_cons, hf0 c (List.mem_cons.2 (Or.inl rfl)) hc_ne]
      rw [ih (List.nodup_cons.1 hnd).2 c0 hmem hf1
        (fun x hx => hf0 x (List.mem_cons.2 (Or.inr hx)))]

theorem mem_le_map_sum {f : ProcessInfo → Nat} :
    ∀ cs : List ProcessInfo, ∀ x ∈ cs, f x ≤ (cs.map f).sum := by
  intro cs
  induction cs with
  | nil => intro x hx; cases hx
  | cons c rest ih =>
    intro x hx
    simp only [List.map_cons, List.sum_cons]
    rcases List.mem_cons.1 hx with rfl | hx2
    · omega
    · have := ih x hx2; omega

theorem two_mem_le_map_sum {f : ProcessInfo → Nat} :
    ∀ cs : List ProcessInfo, ∀ a b : ProcessInfo, a ≠ b → a ∈ cs → b ∈ cs →
      f a + f b ≤ (cs.map f).sum := by
  intro cs
  induction cs with
  | nil => intro a b _ ha; cases ha
  | cons c rest ih =>
    intro a b hab ha hb
    simp only [List.map_cons, List.sum_cons]
    rcases List.mem_cons.1 ha with rfl | ha2
    · have hb2 : b ∈ rest := by
        rcases List.mem_cons.1 hb with rfl | h
        · exact absurd rfl hab
        · exact h
      have := mem_le_map_sum (f := f) rest b hb2; omega
    · rcases List.mem_cons.1 hb with rfl | hb2
      · have := mem_le_map_sum (f := f) rest a ha2; omega
      · have := ih a b hab ha2 hb2; omega

theorem emitTree_count {all : List ProcessInfo} (hA : Acyclic all)
    (hN : (all.map fun r => r.pid).Nodup) :
    ∀ (fuel : Nat) (cur : Int) (level : Nat) (out : List (Nat × ProcessInfo)),
      emitTree fuel all cur level = some out → ∀ d ∈ all,
        (Relation.ReflTransGen (ChildRel all) cur d.ppid →
          countRec d (out.map Prod.snd) = 1) ∧
        (¬ Relation.ReflTransGen (ChildRel all) cur d.ppid →
          countRec d (out.map Prod.snd) = 0) := by
  intro fuel
  induction fuel with
  | zero => intro cur level out h; simp [emitTree] at h
  | succ fuel ih =>
    intro cur level out h d hd
    simp only [emitTree] at h
    have hcount := emitChildren_count h d
    have hsucc := emitChildren_success h
    constructor
    · intro hrtg
      rw [hcount]
      rcases Relation.ReflTransGen.cases_head hrtg with heq | ⟨q, hq, hqd⟩
      · have hdc : d ∈ childrenOf all cur := mem_childrenOf.2 ⟨hd, heq.symm⟩
        refine sum_eq_one_of_unique _ (childrenOf_nodup hN) d hdc ?_ ?_
        · obtain ⟨sub, hsub⟩ := hsucc d hdc
          have h0 : ¬ Relation.ReflTransGen (ChildRel all) d.pid d.ppid := by
            intro hr2
            exact noReturn hA ⟨d, hd, heq.symm, rfl⟩ (by rw [heq]; exact hr2)
          simp [hsub, (ih d.pid (level + 1) sub hsub d hd).2 h0]
        · intro c hc hcne
          obtain ⟨hcall, hcppid⟩ := mem_childrenOf.1 hc
          obtain ⟨sub, hsub⟩ := hsucc c hc
          have h0 : ¬ Relation.ReflTransGen (ChildRel all) c.pid d.ppid := by
            intro hr2
            exact noReturn hA ⟨c, hcall, hcppid, rfl⟩ (by rw [heq]; exact hr2)
          simp [hsub, hcne, (ih c.pid (level + 1) sub hsub d hd).2 h0]
      · obtain ⟨s, hs, hsp, hspid⟩ := hq
        have hcur_ne : d.ppid ≠ cur := by
          intro h0
          exact noReturn hA ⟨s, hs, hsp, hspid⟩ (by rw [h0] at hqd; exact hqd)
        have hsc : s ∈ childrenOf all cur := mem_childrenOf.2 ⟨hs, hsp⟩
        refine sum_eq_one_of_unique _ (childrenOf_nodup hN) s hsc ?_ ?_
        · obtain ⟨sub, hsub⟩ := hsucc s hsc
          have hsd : s ≠ d := by
            intro h0
            exact hcur_ne (by rw [← h0]; exact hsp)
          have h1 : Relation.ReflTransGen (ChildRel all) s.pid d.ppid := by
            rw [hspid]; exact hqd
          simp [hsub, hsd, (ih s.pid (level + 1) sub hsub d hd).1 h1]
        · intro c hc hcne
          obtain ⟨hcall, hcppid⟩ := mem_childrenOf.1 hc
          obtain ⟨sub, hsub⟩ := hsucc c hc
          have hcd : c ≠ d := by
            intro h0
            exact hcur_ne (by rw [← h0]; exact hcppid)
          have h0 : ¬ Relation.ReflTransGen (ChildRel all) c.pid d.ppid := by
            intro hr2
            have hpidne : c.pid ≠ s.pid := fun hpe =>
              hcne (List.inj_on_of_nodup_map hN hcall hs hpe)
            exact two_children_false hA hN ⟨c, hcall, hcppid, rfl⟩ ⟨s, hs, hsp, rfl⟩
              hpidne hr2 (by rw [hspid]; exact hqd)
          simp [hsub, hcd, (ih c.pid (level + 1) sub hsub d hd).2 h0]
    · intro hnrtg
      rw [hcount]
      apply List.sum_eq_zero
      intro x hx
      rcases List.mem_map.1 hx with ⟨c, hc, rfl⟩
      obtain ⟨hcall, hcppid⟩ := mem_childrenOf.1 hc
      obtain ⟨sub, hsub⟩ := hsucc c hc
      have h1 : c ≠ d := by
        intro h0
        apply hnrtg
        rw [← h0, hcppid]
      have h2 : countRec d (sub.map Prod.snd) = 0 := by
        apply (ih c.pid (level + 1) sub hsub d hd).2
        intro hr2
        exact hnrtg (Relation.ReflTransGen.head ⟨c, hcall, hcppid, rfl⟩ hr2)
      simp [hsub, h1, h2]

theorem emitChildren_level_ge {rec : Int → Option (List (Nat × ProcessInfo))} {level : Nat}
    {cs : List ProcessInfo} {out : List (Nat × ProcessInfo)}
    (hrec : ∀ p sub, rec p = some sub → ∀ e ∈ sub, level + 1 ≤ e.1)
    (h : emitChildren rec level cs = some out) :
    ∀ e ∈ out, level ≤ e.1 := by
  induction cs generalizing out with
  | nil =>
    simp only [emitChildren, Option.some.injEq] at h
    subst h
    intro e he
    cases he
  | cons c rest ih =>
    cases hr : rec c.pid with
    | none => simp [emitChildren, hr] at h
    | some sub =>
      cases ht : emitChildren rec level rest with
      | none => simp [emitChildren, hr, ht] at h
      | some tail =>
        simp only [emitChildren, hr, ht, Option.some.injEq] at h
        subst h
        intro e he
        rcases List.mem_cons.1 he with rfl | he2
        · exact le_refl level
        · rcases List.mem_append.1 he2 with h1 | h2
          · exact le_trans (Nat.le_succ level) (hrec c.pid sub hr e h1)
          · exact ih ht e h2

theorem emitTree_level_ge {all : List ProcessInfo} :
    ∀ (fuel : Nat) (cur : Int) (level : Nat) (out : List (Nat × ProcessInfo)),
      emitTree fuel all cur level = some out → ∀ e ∈ out, level ≤ e.1 := by
  intro fuel
  induction fuel with
  | zero => intro cur level out h; simp [emitTree] at h
  | succ fuel ih =>
    intro cur level out h
    simp only [emitTree] at h
    exact emitChildren_level_ge (fun p sub hsub e he => ih p (level + 1) sub hsub e he) h

theorem emitChildren_filter_level {rec : Int → Option (List (Nat × ProcessInfo))} {level : Nat}
    {cs : List ProcessInfo} {out : List (Nat × ProcessInfo)}
    (hrec : ∀ p sub, rec p = some sub → ∀ e ∈ sub, level + 1 ≤ e.1)
    (h : emitChildren rec level cs = some out) :
    out.filter (fun e => e.1 == level) = cs.map fun c => (level, c) := by
  induction cs generalizing out with
  | nil =>
    simp only [emitChildren, Option.some.injEq] at h
    subst h
    simp
  | cons c rest ih =>
    cases hr : rec c.pid with
    | none => simp [emitChildren, hr] at h
    | some sub =>
      cases ht : emitChildren rec level rest with
      | none => simp [emitChildren, hr, ht] at h
      | some tail =>
        simp only [emitChildren, hr, ht, Option.some.injEq] at h
        subst h
        have hsub0 : sub.filter (fun e => e.1 == level) = [] := by
          rw [List.filter_eq_nil_iff]
          intro e he
          have := hrec c.pid sub hr e he
          simp only [beq_iff_eq]
          omega
        simp [List.filter_append, hsub0, ih ht]

theorem acyclic_of_rank (all : List ProcessInfo) (m : Int → Nat)
    (h : ∀ r ∈ all, m r.ppid < m r.pid) : Acyclic all := by
  have hstep : ∀ p c, ChildRel all p c → m p < m c := by
    rintro p c ⟨r, hr, hp, hc⟩
    subst hp
    subst hc
    exact h r hr
  intro p hp
  have hmono : ∀ a b, Relation.TransGen (ChildRel all) a b → m a < m b := by
    intro a b htg
    induction htg with
    | single h1 => exact hstep _ _ h1
    | tail _ h2 ih => exact lt_trans ih (hstep _ _ h2)
  exact lt_irrefl _ (hmono p p hp)

theorem cyc2_emitTree_none : ∀ (fuel level : Nat),
    emitTree fuel cyc2 5 level = none ∧ emitTree fuel cyc2 6 level = none := by
  intro fuel
  induction fuel with
  | zero => intro level; exact ⟨rfl, rfl⟩
  | succ fuel ih =>
    intro level
    constructor
    · have h5 : childrenOf cyc2 5 = [⟨6, 5, "b"⟩] := rfl
      simp only [emitTree, h5, emitChildren]
      rw [(ih (level + 1)).2]
    · have h6 : childrenOf cyc2 6 = [⟨5, 6, "a"⟩] := rfl
      simp only [emitTree, h6, emitChildren]
      rw [(ih (level + 1)).1]

/-- C1 (code bug): on the cyclic record set `cyc2` with root 5 the traversal
never terminates: for every available call-stack depth `fuel` the recursion is
still running (`none`), so the real program exhausts the stack.  No
`CyclicParentage` condition exists anywhere in the code; the claim's required
detect-and-truncate behaviour is absent. -/
theorem c1_cycle_diverges :
    (∀ (fuel level : Nat), emitTree fuel cyc2 5 level = none) ∧
    render cyc2 5 = none := by
  constructor
  · intro fuel level
    exact (cyc2_emitTree_none fuel level).1
  · unfold render
    rw [(cyc2_emitTree_none (cyc2.length + 1) 0).1]
    rfl

/-- C2 counterexample: `dup3` has no parent_pid cycle (ranks strictly increase
along every child step) and record `{8,7,"c"}` is reachable from root 0, yet
the render emits it twice, because both duplicates of pid 7 are traversed.  So
the claim as stated (for every cycle-free record set each reachable record is
emitted exactly once) is false. -/
theorem c2_duplicate_pid_cx :
    Acyclic dup3 ∧
    Relation.ReflTransGen (ChildRel dup3) 0 7 ∧
    emitTree (dup3.length + 1) dup3 0 0 =
      some [(0, ⟨7, 0, "a"⟩), (1, ⟨8, 7, "c"⟩), (0, ⟨7, 0, "b"⟩), (1, ⟨8, 7, "c"⟩)] ∧
    countRec ⟨8, 7, "c"⟩
      ([(0, (⟨7, 0, "a"⟩ : ProcessInfo)), (1, ⟨8, 7, "c"⟩), (0, ⟨7, 0, "b"⟩),
        (1, ⟨8, 7, "c"⟩)].map Prod.snd) = 2 := by
  refine ⟨acyclic_of_rank dup3 (fun p => p.toNat) (by decide), ?_, rfl, rfl⟩
  exact Relation.ReflTransGen.single ⟨⟨7, 0, "a"⟩, by decide, rfl, rfl⟩

/-- C2 (amended with pairwise-distinct pids, which the spec's data model
assumes): for every record set with no parent_pid cycle and pairwise-distinct
pids, the traversal from any root terminates within call-stack depth
`|records| + 1`, and every record reachable from the root through the
parent_pid-to-pid child relation is emitted exactly once. -/
theorem c2_acyclic_render (all : List ProcessInfo) (root : Int)
    (hA : Acyclic all) (hN : (all.map fun r => r.pid).Nodup) :
    ∃ out, emitTree (all.length + 1) all root 0 = some out ∧
      ∀ r ∈ all, Relation.ReflTransGen (ChildRel all) root r.ppid →
        countRec r (out.map Prod.snd) = 1 := by
  obtain ⟨out, hout⟩ := emitTree_total_of_acyclic hA root 0
  exact ⟨out, hout, fun r hr hrtg =>
    (emitTree_count hA hN (all.length + 1) root 0 out hout r hr).1 hrtg⟩

/-- Witness for C2: the spec's four-record example is acyclic with distinct
pids, so the amended theorem applies to it. -/
theorem c2_acyclic_render_witness :
    ∃ out, emitTree (ex4.length + 1) ex4 0 0 = some out ∧
      ∀ r ∈ ex4, Relation.ReflTransGen (ChildRel ex4) 0 r.ppid →
        countRec r (out.map Prod.snd) = 1 :=
  c2_acyclic_render ex4 0 (acyclic_of_rank ex4 (fun p => p.toNat) (by decide)) (by decide)

/-- C3: rendering the empty record set with root 0 yields exactly the root
line and nothing else, and is a normal (`some`) result, not an error. -/
theorem c3_empty_render : render [] 0 = some ["Root (System) (PID: 0, PPID: 0)"] := rfl

/-- C5 counterexample: the source failure (`/proc` unreadable) is not surfaced
to the top level as a condition distinct from an empty snapshot:
`getAllProcessInfo` returns the very same empty record vector in both cases
(the only difference is an error line printed inside the source), and `main`
takes the same branch with the same exit code 1 in both cases. -/
theorem c5_source_indistinct_cx :
    (getAllProcessInfo SourceOutcome.unavailable).1 =
      (getAllProcessInfo (SourceOutcome.available [])).1 ∧
    (mainRun SourceOutcome.unavailable).map (fun r => r.1) = some 1 ∧
    (mainRun (SourceOutcome.available [])).map (fun r => r.1) = some 1 :=
  ⟨rfl, rfl, rfl⟩

/-- C5 (amended): whenever the source yields zero records the program exits
with status 1, and with status 0 whenever it yields at least one record and
the traversal terminates; but `SourceUnavailable` is not a top-level condition
distinct from `EmptySnapshot`: the source returns the same empty vector, and
the program exits with the same status, in both cases. -/
theorem c5_exit_status :
    (∀ (src : SourceOutcome) (r : Nat × List String × List String),
      mainRun src = some r → (r.1 = 0 ↔ (getAllProcessInfo src).1 ≠ [])) ∧
    (getAllProcessInfo SourceOutcome.unavailable).1 =
      (getAllProcessInfo (SourceOutcome.available [])).1 ∧
    (mainRun SourceOutcome.unavailable).map (fun r => r.1) =
      (mainRun (SourceOutcome.available [])).map (fun r => r.1) := by
  refine ⟨?_, rfl, rfl⟩
  intro src r h
  cases src with
  | unavailable =>
    simp only [mainRun, getAllProcessInfo, List.isEmpty_nil, if_pos, Option.some.injEq] at h
    subst h
    simp [getAllProcessInfo]
  | available rs =>
    cases rs with
    | nil =>
      simp only [mainRun, getAllProcessInfo, List.isEmpty_nil, if_pos, Option.some.injEq] at h
      subst h
      simp [getAllProcessInfo]
    | cons p rest =>
      simp only [mainRun, getAllProcessInfo, List.isEmpty_cons, if_neg] at h
      rcases Option.map_eq_some'.1 h with ⟨out, _, hr⟩
      subst hr
      simp [getAllProcessInfo]

/-- Witness for C5: on a successful source returning no records the program
exits with status 1. -/
theorem c5_exit_status_witness :
    ((1 : Nat) = 0 ↔ (getAllProcessInfo (SourceOutcome.available [])).1 ≠ []) :=
  c5_exit_status.1 (SourceOutcome.available [])
    (1, ["Gathering process information..."],
      ["No process information retrieved. This might happen on non-Linux/macOS systems or due to permissions."])
    rfl

/-- C6 counterexample: with two distinct records sharing pid 7 (both children
of node 0) the children are emitted with pid sequence 7, 7, which is not
strictly ascending; so the claim as stated, quantified over every record set,
is false. -/
theorem c6_duplicate_pid_cx :
    emitTree 2 dup2 0 0 = some [(0, ⟨7, 0, "a"⟩), (0, ⟨7, 0, "b"⟩)] ∧
    ¬ List.Pairwise (fun a b => a.pid < b.pid)
        (([(0, (⟨7, 0, "a"⟩ : ProcessInfo)), (0, ⟨7, 0, "b"⟩)].filter
          (fun e => e.1 == 0)).map Prod.snd) := by
  refine ⟨rfl, ?_⟩
  decide

/-- C6 (amended with pairwise-distinct pids): in every successful traversal
the entries emitted at indentation `level` are exactly the sorted `children`
vector of the visited node, and when the record set's pids are pairwise
distinct that vector is in strictly ascending pid order. -/
theorem c6_children_sorted (all : List ProcessInfo) (fuel level : Nat) (cur : Int)
    (out : List (Nat × ProcessInfo)) (hN : (all.map fun r => r.pid).Nodup)
    (h : emitTree fuel all cur level = some out) :
    (out.filter (fun e => e.1 == level)).map Prod.snd = childrenOf all cur ∧
    (childrenOf all cur).Pairwise (fun a b => a.pid < b.pid) := by
  refine ⟨?_, childrenOf_pairwise_lt hN⟩
  cases fuel with
  | zero => simp [emitTree] at h
  | succ fuel =>
    simp only [emitTree] at h
    have hf := emitChildren_filter_level
      (fun p sub hsub e he => emitTree_level_ge fuel p (level + 1) sub hsub e he) h
    rw [hf, List.map_map]
    simp

/-- Witness for C6: on the spec's four-record example the top-level entries of
the output are exactly the children of node 0, in strictly ascending pid
order. -/
theorem c6_children_sorted_witness :
    ([(0, (⟨1, 0, "init"⟩ : ProcessInfo)), (1, ⟨2, 1, "shell"⟩), (2, ⟨4, 2, "child"⟩),
        (1, ⟨3, 1, "editor"⟩)].filter (fun e => e.1 == 0)).map Prod.snd =
      childrenOf ex4 0 ∧
    (childrenOf ex4 0).Pairwise (fun a b => a.pid < b.pid) :=
  c6_children_sorted ex4 5 0 0
    [(0, ⟨1, 0, "init"⟩), (1, ⟨2, 1, "shell"⟩), (2, ⟨4, 2, "child"⟩), (1, ⟨3, 1, "editor"⟩)]
    (by decide) rfl

/-- C10: duplicate pids are neither detected nor collapsed.  If two distinct
records `a` and `b` share pid `p` and are both children of the visited node,
then the subtree below `p` is computed once per duplicate: the output contains
`a`'s line, `b`'s line, and at least two copies of every record of the subtree
emitted below `p` (exact counts on a concrete input are in the witness). -/
theorem c10_duplicate_pids (all : List ProcessInfo) (fuel level : Nat) (cur : Int)
    (out : List (Nat × ProcessInfo)) (a b : ProcessInfo)
    (ha : a ∈ all) (hb : b ∈ all) (hab : a ≠ b) (hpid : a.pid = b.pid)
    (hpa : a.ppid = cur) (hpb : b.ppid = cur)
    (h : emitTree (fuel + 1) all cur level = some out) :
    ∃ sub, emitTree fuel all a.pid (level + 1) = some sub ∧
      1 ≤ countRec a (out.map Prod.snd) ∧ 1 ≤ countRec b (out.map Prod.snd) ∧
      ∀ d : ProcessInfo,
        (if a = d then 1 else 0) + (if b = d then 1 else 0) +
          2 * countRec d (sub.map Prod.snd) ≤ countRec d (out.map Prod.snd) := by
  simp only [emitTree] at h
  have hcs_a : a ∈ childrenOf all cur := mem_childrenOf.2 ⟨ha, hpa⟩
  have hcs_b : b ∈ childrenOf all cur := mem_childrenOf.2 ⟨hb, hpb⟩
  obtain ⟨sub, hsub⟩ := emitChildren_success h a hcs_a
  have hmain : ∀ d : ProcessInfo,
      (if a = d then 1 else 0) + (if b = d then 1 else 0) +
        2 * countRec d (sub.map Prod.snd) ≤ countRec d (out.map Prod.snd) := by
    intro d
    rw [emitChildren_count h d]
    have hle := two_mem_le_map_sum (f := fun c =>
        (if c = d then 1 else 0) +
          countRec d (((emitTree fuel all c.pid (level + 1)).getD []).map Prod.snd))
      (childrenOf all cur) a b hab hcs_a hcs_b
    simp only [← hpid, hsub, Option.getD_some] at hle
    omega
  refine ⟨sub, hsub, ?_, ?_, hmain⟩
  · have h1 := hmain a
    rw [if_pos rfl] at h1
    omega
  · have h2 := hmain b
    rw [if_pos rfl] at h2
    omega

/-- Witness for C10: on `dup3` both duplicates of pid 7 are emitted and the
descendant record `{8,7,"c"}` appears once per duplicate. -/
theorem c10_duplicate_pids_witness :
    ∃ sub, emitTree 3 dup3 7 1 = some sub ∧
      1 ≤ countRec ⟨7, 0, "a"⟩
          ([(0, (⟨7, 0, "a"⟩ : ProcessInfo)), (1, ⟨8, 7, "c"⟩), (0, ⟨7, 0, "b"⟩),
            (1, ⟨8, 7, "c"⟩)].map Prod.snd) ∧
      1 ≤ countRec ⟨7, 0, "b"⟩
          ([(0, (⟨7, 0, "a"⟩ : ProcessInfo)), (1, ⟨8, 7, "c"⟩), (0, ⟨7, 0, "b"⟩),
            (1, ⟨8, 7, "c"⟩)].map Prod.snd) ∧
      ∀ d : ProcessInfo,
        (if (⟨7, 0, "a"⟩ : ProcessInfo) = d then 1 else 0) +
          (if (⟨7, 0, "b"⟩ : ProcessInfo) = d then 1 else 0) +
          2 * countRec d (sub.map Prod.snd) ≤
        countRec d
          ([(0, (⟨7, 0, "a"⟩ : ProcessInfo)), (1, ⟨8, 7, "c"⟩), (0, ⟨7, 0, "b"⟩),
            (1, ⟨8, 7, "c"⟩)].map Prod.snd) :=
  c10_duplicate_pids dup3 3 0 0
    [(0, ⟨7, 0, "a"⟩), (1, ⟨8, 7, "c"⟩), (0, ⟨7, 0, "b"⟩), (1, ⟨8, 7, "c"⟩)]
    ⟨7, 0, "a"⟩ ⟨7, 0, "b"⟩ (by decide) (by decide) (by decide) rfl rfl rfl rfl

end ProcTree

namespace MiniRouter

theorem assocGet_assocSet_same (k : String) (v : α) :
    ∀ l : List (String × α), assocGet k (assocSet k v l) = some v := by
  intro l
  induction l with
  | nil => simp [assocGet, assocSet]
  | cons p rest ih =>
    by_cases h : p.1 = k
    · simp [assocSet, assocGet, h]
    · simp only [assocSet]
      rw [if_neg h]
      simp only [assocGet]
      rw [if_neg h]
      exact ih

theorem assocGet_nestedSet_same (v path : String) (a : RouteAction) :
    ∀ routes : List (String × List (String × RouteAction)),
      assocGet v (nestedSet v path a routes) =
        some (assocSet path a ((assocGet v routes).getD [])) := by
  intro routes
  induction routes with
  | nil => simp [nestedSet, assocGet, assocSet]
  | cons p rest ih =>
    by_cases h : p.1 = v
    · simp [nestedSet, assocGet, h]
    · simp only [nestedSet]
      rw [if_neg h]
      simp only [assocGet]
      rw [if_neg h, if_neg h]
      exact ih

theorem assocGet_append_single (k M : String) (t : α) :
    ∀ l : List (String × α),
      assocGet k (l ++ [(M, t)]) =
        match assocGet k l with
        | some v => some v
        | none => if M = k then some t else none := by
  intro l
  induction l with
  | nil => simp [assocGet]
  | cons p rest ih =>
    by_cases h : p.1 = k
    · simp [assocGet, h]
    · simp only [List.cons_append, assocGet]
      rw [if_neg h, if_neg h]
      exact ih

/-- C4: dispatch never changes the verb-to-path-to-action mapping of the
table, for any verb and path, including when no route matches.  (When the
normalised verb is absent, the Hash default block does append an empty inner
hash for it, but that maps no path to any action, so every lookup is
unchanged.) -/
theorem c4_dispatch_preserves_table (r : Router) (m path v p : String) :
    routeLookup (dispatch r m path).2 v p = routeLookup r v p := by
  unfold dispatch
  cases hM : assocGet (upStr m) r.routes with
  | some tbl =>
    cases hp : assocGet path tbl <;> simp [hp]
  | none =>
    simp only []
    unfold routeLookup
    rw [assocGet_append_single]
    cases hv : assocGet v r.routes with
    | some t => simp
    | none =>
      by_cases h : upStr m = v
      · simp [h, assocGet]
      · simp [h]

/-- C7: dispatch matches the verb case-insensitively (only the upcased verb is
ever consulted) but the path by exact, case-sensitive string equality:
`dispatch(:get, "/About")` misses the route registered at `"/about"`, while
the mixed-casing verb `"GeT"` still finds it. -/
theorem c7_verb_case_path_exact :
    (∀ (r : Router) (s t path : String), upStr s = upStr t →
      dispatch r s path = dispatch r t path) ∧
    (dispatch aboutRouter "get" "/About").1 = "404 Not Found" ∧
    (dispatch aboutRouter "GeT" "/about").1 =
      "This is the about page, built with Ruby metaprogramming." := by
  refine ⟨?_, rfl, rfl⟩
  intro r s t path h
  unfold dispatch
  rw [h]

/-- Witness for C7: the casings `"GET"` and `"get"` dispatch identically. -/
theorem c7_verb_case_witness :
    dispatch aboutRouter "GET" "/about" = dispatch aboutRouter "get" "/about" :=
  c7_verb_case_path_exact.1 aboutRouter "GET" "get" "/about" rfl

/-- C8: registering the same `(verb, path)` pair twice overwrites: after
registering action `a` and then action `b` for the same verb and path,
dispatch returns `b`'s result, for every starting table. -/
theorem c8_last_write_wins (r : Router) (m : HttpMethod) (path : String)
    (a b : RouteAction) :
    (dispatch (registerRoute m path b (registerRoute m path a r)) m.toStr path).1 = b () := by
  simp only [dispatch, registerRoute, assocGet_nestedSet_same, assocGet_assocSet_same]

/-- C9: whenever the table holds no action for the normalised verb and the
exact path — empty table, verb without routes, or unregistered path — dispatch
returns the literal sentinel string `"404 Not Found"` (it is a total function:
no exception is modelled or needed). -/
theorem c9_not_found (r : Router) (m path : String)
    (h : routeLookup r (upStr m) path = none) :
    (dispatch r m path).1 = "404 Not Found" := by
  unfold routeLookup at h
  unfold dispatch
  cases hM : assocGet (upStr m) r.routes with
  | some tbl =>
    simp only [hM] at h
    simp [h]
  | none => simp

/-- Witness for C9: `dispatch(POST, "/unregistered")` on the empty table. -/
theorem c9_not_found_witness :
    (dispatch Router.new "post" "/unregistered").1 = "404 Not Found" :=
  c9_not_found Router.new "post" "/unregistered" rfl

end MiniRouter
